import Mathlib

/-!
Verification development for the Asterisk AMI protocol engine
(`src/services/asterisk-manager/ami.ts` and `utils.ts`).

Strings are modelled as `List Char` (one JS character per list element).
Each definition mirrors the corresponding function of the source; the
doc comment of a definition names the source symbol it embeds.
-/

namespace AMI

/-! ### String helpers (from `utils.ts` and JS string primitives) -/

/-- JS `String.prototype.toLowerCase` (ASCII, as used by the engine). -/
def lowerStr (s : List Char) : List Char := s.map Char.toLower

/-- JS `\s` whitespace test as used by `removeSpaces` in `utils.ts`. -/
def isWSChar (c : Char) : Bool :=
  c = ' ' || c = '\t' || c = '\n' || c = '\r' || c = '\x0b' || c = '\x0c'

/-- Source `removeSpaces` (`utils.ts`): strips leading and trailing whitespace. -/
def removeSpaces (s : List Char) : List Char :=
  ((s.dropWhile isWSChar).reverse.dropWhile isWSChar).reverse

/-- JS `haystack.indexOf(needle) > -1`: substring containment. -/
def containsSub (needle : List Char) : List Char → Bool
  | [] => needle.isPrefixOf ([] : List Char)
  | c :: t => needle.isPrefixOf (c :: t) || containsSub needle t

/-- Splits at the first occurrence of `sep`, returning the parts before and
after it; `none` when `sep` does not occur.  Used to model JS
`line.split(sep)` followed by `shift` / rejoin, which is equivalent to a
split at the first occurrence. -/
def splitFirstSub (sep : List Char) : List Char → Option (List Char × List Char)
  | [] => none
  | c :: t =>
    if sep.isPrefixOf (c :: t) then some ([], (c :: t).drop sep.length)
    else
      match splitFirstSub sep t with
      | some r => some (c :: r.1, r.2)
      | none => none

/-- Source `handleData` inner parse: `line.split(': ')`, `shift` as key,
`join(': ')` as value (everything after the first `': '`). -/
def splitKV (line : List Char) : List Char × List Char :=
  match splitFirstSub [':', ' '] line with
  | some r => r
  | none => (line, [])

/-- Source `handleData` variable parse: `value.split('=')`, `shift` as subkey,
`join('=')` as subvalue. -/
def splitVarKV (value : List Char) : List Char × List Char :=
  match splitFirstSub ['='] value with
  | some r => r
  | none => (value, [])

/-! ### Line splitting

Source `handleData` buffering:
`leftOver += data; lines = lines.concat(leftOver.split(/\r?\n/)); leftOver = lines.pop()`.
`splitPop s` returns the complete lines produced by `s.split(/\r?\n/)`
together with the popped final fragment.  The regex `/\r?\n/` consumes a
`'\r'` exactly when it immediately precedes a `'\n'`. -/

/-- JS `s.split(/\r?\n/)` followed by `pop()`: complete lines and the
trailing fragment after the last newline. -/
def splitPop : List Char → List (List Char) × List Char
  | [] => ([], [])
  | '\n' :: t => ([] :: (splitPop t).1, (splitPop t).2)
  | c :: t =>
    if c = '\r' && t.head? = some '\n' then splitPop t
    else
      match splitPop t with
      | ([], rest) => ([], c :: rest)
      | (h :: ls, rest) => ((c :: h) :: ls, rest)

/-! ### Assembled messages (items emitted on `rawevent`) -/

/-- Value stored under one key of an assembled item.  `arr` arises from
repeated keys; `vmap` from `variable`/`chanvariable` lines. -/
inductive IVal where
  | s (v : List Char)
  | arr (vs : List (List Char))
  | vmap (m : List (List Char × List Char))
deriving Repr, DecidableEq

/-- A message emitted by the assembler (`this.emit('rawevent', item)`):
either a follows block `{response: 'follows', content, actionid?}` or a
plain field mapping. -/
inductive Msg where
  | follows (content : List Char) (actionid : Option (List Char))
  | block (fields : List (List Char × IVal))
deriving Repr, DecidableEq

/-- JS object property write `m[k] = v`: overwrite in place, else append
(insertion order preserved). -/
def alSet {V : Type} (m : List (List Char × V)) (k : List Char) (v : V) :
    List (List Char × V) :=
  match m with
  | [] => [(k, v)]
  | kv :: t => if kv.1 = k then (k, v) :: t else kv :: alSet t k v

/-- JS object property read `m[k]`. -/
def alGet {V : Type} (m : List (List Char × V)) (k : List Char) : Option V :=
  match m with
  | [] => none
  | kv :: t => if kv.1 = k then some kv.2 else alGet t k

/-- Source `handleData` per-line item update (the inner `while (lines.length)`
loop body of the complete-item branch). -/
def parseLine (item : List (List Char × IVal)) (line : List Char) :
    List (List Char × IVal) :=
  let kv := splitKV line
  let key := lowerStr (removeSpaces kv.1)
  let value := kv.2
  if key = "variable".toList ∨ key = "chanvariable".toList then
    let sub := splitVarKV value
    match alGet item key with
    | some (IVal.vmap m) => alSet item key (IVal.vmap (alSet m sub.1 sub.2))
    | some (IVal.s _) => alSet item key (IVal.vmap (alSet ([] : List (List Char × List Char)) sub.1 sub.2))
    | some (IVal.arr _) =>
      -- never hit: `arr` values are only stored under keys other than
      -- `variable`/`chanvariable`, which always take this branch instead
      alSet item key (IVal.vmap (alSet ([] : List (List Char × List Char)) sub.1 sub.2))
    | none => alSet item key (IVal.vmap (alSet ([] : List (List Char × List Char)) sub.1 sub.2))
  else
    match alGet item key with
    | some (IVal.arr vs) => alSet item key (IVal.arr (vs ++ [value]))
    | some (IVal.s v) => alSet item key (IVal.arr [v, value])
    | some (IVal.vmap _) =>
      -- never hit: `vmap` values are only stored under the
      -- `variable`/`chanvariable` keys, which take the other branch
      alSet item key (IVal.arr [value])
    | none => alSet item key (IVal.s value)

/-- Source `handleData` complete-item branch: filter empty lines
(`stringHasLength`) then fold the key/value parse. -/
def parseBlock (lines : List (List Char)) : List (List Char × IVal) :=
  (lines.filter (fun l => !l.isEmpty)).foldl parseLine []

/-- One position of the scan of `content.match(/actionid: ([^\r\n]+)/i)`:
a case-insensitive `actionid: ` prefix followed by at least one
non-newline character. -/
def matchActionIdAt (s : List Char) : Option (List Char) :=
  if lowerStr (s.take 10) = "actionid: ".toList then
    let cap := (s.drop 10).takeWhile (fun c => c ≠ '\r' && c ≠ '\n')
    if cap.isEmpty then none else some cap
  else none

/-- Source `item.content.match(/actionid: ([^\r\n]+)/i)`: first match of the
scan, returning the captured group. -/
def extractActionId : List Char → Option (List Char)
  | [] => none
  | c :: t =>
    match matchActionIdAt (c :: t) with
    | some v => some v
    | none => extractActionId t

/-- `line.substr(0, 21) === 'Asterisk Call Manager'`. -/
def isGreeting (line : List Char) : Bool :=
  line.take 21 = "Asterisk Call Manager".toList

/-- `line.substr(0, 9).toLowerCase() === 'response:' &&
line.toLowerCase().indexOf('follow') > -1`. -/
def isFollowsStart (line : List Char) : Bool :=
  lowerStr (line.take 9) = "response:".toList &&
    containsSub "follow".toList (lowerStr line)

/-- `line === '--END COMMAND--' || line === '--END SMS EVENT--'`. -/
def isEndMarker (line : List Char) : Bool :=
  line = "--END COMMAND--".toList || line = "--END SMS EVENT--".toList

/-- The local loop state of `handleData`: the accumulated block lines
(local `lines`) and the `follow` flag. -/
structure LoopSt where
  acc : List (List Char)
  follow : Nat
deriving Repr, DecidableEq

/-- One iteration of the `while (this.context.lines.length)` loop of
`handleData`, acting on one shifted line; returns the updated local state
and the message emitted (if any). -/
def stepLine (st : LoopSt) (line : List Char) : LoopSt × Option Msg :=
  if st.acc.isEmpty && isGreeting line then
    (st, none)
  else if st.acc.isEmpty && isFollowsStart line then
    (⟨st.acc ++ [line], 1⟩, none)
  else if st.follow ≠ 0 && isEndMarker line then
    (⟨st.acc ++ [line], 2⟩, none)
  else if st.follow > 1 && line.isEmpty then
    -- lines.pop() removes the end marker; content joins the rest with '\n'
    let content := List.intercalate ['\n'] st.acc.dropLast
    (⟨[], 0⟩, some (Msg.follows content (extractActionId content)))
  else if st.follow = 0 && line.isEmpty then
    -- `follow` is 0 in this branch, so the local state keeps follow = 0
    (⟨[], 0⟩, some (Msg.block (parseBlock st.acc)))
  else
    (⟨st.acc ++ [line], st.follow⟩, none)

/-- The whole `while` loop of `handleData` over a list of pending lines. -/
def procLines (st : LoopSt) : List (List Char) → LoopSt × List Msg
  | [] => (st, [])
  | l :: rest =>
    let r := stepLine st l
    let r2 := procLines r.1 rest
    (r2.1, r.2.toList ++ r2.2)

/-- The persistent assembler state: `context.lines` (the accumulated block
lines saved back after the loop) and `context.leftOver`. -/
structure AsmSt where
  ctxLines : List (List Char)
  leftOver : List Char
deriving Repr, DecidableEq

/-- Initial assembler context (`lines` and `leftOver` empty). -/
def initAsm : AsmSt := ⟨[], []⟩

/-- Source `Manager.handleData`: append data to `leftOver`, split into
lines, pop the trailing fragment, run the loop from a fresh local state
(`lines = []`, `follow = 0`) over the saved plus new lines, and save the
final local accumulator back into the context. -/
def handleData (st : AsmSt) (data : List Char) : AsmSt × List Msg :=
  let sp := splitPop (st.leftOver ++ data)
  let r := procLines ⟨[], 0⟩ (st.ctxLines ++ sp.1)
  (⟨r.1.acc, sp.2⟩, r.2)

/-- Feed a list of chunks through `handleData` one call at a time,
concatenating the emitted messages. -/
def feedAll (st : AsmSt) : List (List Char) → AsmSt × List Msg
  | [] => (st, [])
  | c :: cs =>
    let r := handleData st c
    let r2 := feedAll r.1 cs
    (r2.1, r.2 ++ r2.2)

/-- Replayability of a loop state: re-running the accumulated lines from
a fresh local state (as the next `handleData` call will) emits nothing
and reconstructs the same accumulator and follow flag. -/
def LoopInv (st : LoopSt) : Prop := procLines ⟨[], 0⟩ st.acc = (st, [])

/-- Assembler-context invariant: the saved lines are replayable and the
leftover fragment contains no newline. -/
def AsmInv (st : AsmSt) : Prop :=
  (∃ f, procLines ⟨[], 0⟩ st.ctxLines = (⟨st.ctxLines, f⟩, [])) ∧ '\n' ∉ st.leftOver

/-! ### Outbound serialization (`Manager.makeActionText`) -/

/-- A JS value stored in an action field, as distinguished by
`makeActionText`: simple value (already stringified), array of values,
plain object of name/value pairs, RegExp instance, `null`, `undefined`. -/
inductive AVal where
  | s (v : List Char)
  | arr (vs : List (List Char))
  | obj (m : List (List Char × List Char))
  | rgx
  | nullv
  | undef
deriving Repr, DecidableEq

/-- `nkey.charAt(0).toUpperCase() + nkey.slice(1)`. -/
def capitalize : List Char → List Char
  | [] => []
  | c :: t => Char.toUpper c :: t

/-- Lexicographic string comparison as used by JS default `Array.sort`. -/
def lexLe : List Char → List Char → Bool
  | [], _ => true
  | _ :: _, [] => false
  | a :: as, b :: bs => if a < b then true else if b < a then false else lexLe as bs

/-- Insert into a `lexLe`-sorted list (stable). -/
def insertSorted (x : List Char) : List (List Char) → List (List Char)
  | [] => [x]
  | y :: t => if lexLe x y then x :: y :: t else y :: insertSorted x t

/-- JS `msg.sort()`: sort string lines lexicographically. -/
def sortStrs (l : List (List Char)) : List (List Char) :=
  l.foldr insertSorted []

/-- The lines pushed by the `Object.keys(req).forEach` body of
`makeActionText` for one field. -/
def fieldLinesSrc (key : List Char) (v : AVal) : List (List Char) :=
  let nkey := lowerStr (removeSpaces key)
  if nkey.isEmpty ∨ nkey = "actionid".toList then []
  else
    let fkey := capitalize nkey
    match v with
    | AVal.undef => []
    | AVal.nullv => []
    | AVal.arr vs => [fkey ++ ": ".toList ++ List.intercalate [','] vs]
    | AVal.obj m => m.map (fun nv => fkey ++ ": ".toList ++ nv.1 ++ ['='] ++ nv.2)
    | AVal.rgx => []
    | AVal.s sv => [fkey ++ ": ".toList ++ sv]

/-- Source `Manager.makeActionText`: the `ActionID` line plus the per-field
lines in key order, sorted, joined by CRLF with a trailing blank line. -/
def makeActionText (req : List (List Char × AVal)) (id : List Char) : List Char :=
  let msg := ("ActionID: ".toList ++ id) :: req.flatMap (fun kv => fieldLinesSrc kv.1 kv.2)
  List.intercalate ['\r', '\n'] (sortStrs msg) ++ "\r\n\r\n".toList

/-- Value shapes enumerated by the claim/spec data model: string, array of
strings, nested name=value mapping. -/
def claimShaped : AVal → Prop
  | AVal.s _ => True
  | AVal.arr _ => True
  | AVal.obj _ => True
  | _ => False

instance : DecidablePred claimShaped := by
  intro v; unfold claimShaped; cases v <;> infer_instance

/-- A key whose normalization is nonempty and is not `actionid` (the keys
the claim's per-field template speaks about). -/
def usableKey (k : List Char) : Prop :=
  lowerStr (removeSpaces k) ≠ [] ∧ lowerStr (removeSpaces k) ≠ "actionid".toList

instance : DecidablePred usableKey := by
  intro k; unfold usableKey; infer_instance

/-- The per-field lines exactly as the claim words them: one
`<CapitalizedKey>: <value>` line, array values comma-joined into a single
line, nested mappings as repeated `<CapitalizedKey>: <name>=<value>` lines.
This definition follows the claim text, for comparison with
`fieldLinesSrc` (which follows the source). -/
def specFieldLines (key : List Char) (v : AVal) : List (List Char) :=
  let fkey := capitalize (lowerStr (removeSpaces key))
  match v with
  | AVal.s sv => [fkey ++ ": ".toList ++ sv]
  | AVal.arr vs => [fkey ++ ": ".toList ++ List.intercalate [','] vs]
  | AVal.obj m => m.map (fun nv => fkey ++ ": ".toList ++ nv.1 ++ ['='] ++ nv.2)
  | _ => []  -- value shapes outside the claim's data model

/-- Serialization exactly as the claim words it: an `ActionID: <id>` line
plus the per-field lines, all sorted lexicographically, CRLF-joined, with a
trailing blank line. -/
def specActionText (req : List (List Char × AVal)) (id : List Char) : List Char :=
  List.intercalate ['\r', '\n']
    (sortStrs (("ActionID: ".toList ++ id) :: req.flatMap (fun kv => specFieldLines kv.1 kv.2)))
    ++ "\r\n\r\n".toList

/-! ### Reconnect backoff (`attemptReconnect` / `resetBackoff`) -/

/-- Source `attemptReconnect` backoff update:
`if (backoff < 60000) backoff += 10000`. -/
def nextBackoff (b : Nat) : Nat := if b < 60000 then b + 10000 else b

/-- The delay armed for the k-th consecutive failed reconnect attempt,
starting from the constructor's initial `backoff: 10000`
(`attemptReconnect` arms the timer at the current backoff, then bumps it). -/
def backoffDelay (k : Nat) : Nat := nextBackoff^[k] 10000

/-! ### Manager state machine (`connect`, `action`, `login`, `disconnect`,
`keepConnected`, `attemptReconnect`) -/

/-- A `Net.Socket.readyState` value (`'open'` is modelled as `ropen`). -/
inductive RState where
  | opening
  | ropen
  | readOnly
  | writeOnly
  | closed
deriving Repr, DecidableEq

/-- An action object handed to `Manager.action`: its `action` name, its
optional caller-supplied `actionid`, and its remaining fields. -/
structure MAction where
  action : List Char
  actionid : Option (List Char)
  fields : List (List Char × AVal)
deriving Repr, DecidableEq

/-- The engine state observable through the claims: the context flags and
queues of `AmiContext`, the registered one-shot completion listeners, the
wire log of written actions, and the reconnect supervisor bookkeeping
(`this.reconnect` set, `'close'` listener attached, pending `setTimeout`). -/
structure MState where
  authenticated : Bool
  held : List (MAction × Nat)
  pendingIds : List (List Char)
  conn : Option RState
  written : List (List Char × MAction)
  lastid : Option (List Char)
  reconnectSet : Bool
  closeListenerOn : Bool
  backoff : Nat
  timerPending : Bool
  timerDelay : Nat
deriving Repr, DecidableEq

/-- Constructor state: `{ backoff: 10000, emitter: this, held: [] }`, no
connection, nothing pending. -/
def initM : MState :=
  ⟨false, [], [], none, [], none, false, false, 10000, false, 0⟩

/-- Longest identifier in a list (termination measure for the id
perturbation loop). -/
def maxLen (l : List (List Char)) : Nat :=
  l.foldr (fun s m => max s.length m) 0

/-- Source `while (this.listenerCount(id) > 0) id += String(Math.floor(Math.random() * 9))`:
perturb a colliding identifier by appending random digits until it is not
registered.  `rnd` supplies the successive random characters.  The `fuel`
parameter only bounds the recursion: each append lengthens the identifier,
so after `maxLen pending + 1` appends it is longer than every pending
identifier and the loop condition is false; exhausted fuel therefore
returns the same identifier the loop would (see `genIdAux_not_mem`). -/
def genIdAux (pending : List (List Char)) (rnd : Nat → Char) :
    Nat → Nat → List Char → List Char
  | 0, _, id => id
  | fuel + 1, k, id =>
    if id ∈ pending then genIdAux pending rnd fuel (k + 1) (id ++ [rnd k]) else id

/-- The identifier finally used for an action, starting from its base. -/
def genId (pending : List (List Char)) (rnd : Nat → Char) (base : List Char) :
    List Char :=
  genIdAux pending rnd (maxLen pending + 1) 0 base

/-- JS falsy-or: `actionObj.actionid || String(new Date().getTime())`
(an empty string is falsy). -/
def falsyOr (o : Option (List Char)) (d : List Char) : List Char :=
  match o with
  | some s => if s = [] then d else s
  | none => d

/-- Drop the `actionid` property (`delete actionObj.actionid`). -/
def stripId (a : MAction) : MAction := { a with actionid := none }

/-- Set the `actionid` property (`actionObj.actionid = id`). -/
def withId (a : MAction) (id : List Char) : MAction := { a with actionid := some id }

/-- Source `Manager.action`: generate the identifier (perturbing
collisions against registered listeners), hold the action when not
authenticated and not a login, hold it when the write throws (no
connection), otherwise write it and register the one-shot completion.
`connection.write(makeActionText(actionObj, id))` is modelled as appending
`(id, actionObj)` to the wire log.  Returns the new state and the
identifier handed back to the caller. -/
def actionStep (st : MState) (a : MAction) (cb : Nat) (now : List Char)
    (rnd : Nat → Char) : MState × List Char :=
  let id := genId st.pendingIds rnd (falsyOr a.actionid now)
  let a' := stripId a
  if st.authenticated = false ∧ a.action ≠ "login".toList then
    ({ st with held := st.held ++ [({ a' with actionid := some id }, cb)] }, id)
  else
    match st.conn with
    | none =>
      -- `write` throws (`There is no connection yet`); the catch block
      -- re-holds the action and returns the id without registering
      ({ st with held := st.held ++ [({ a' with actionid := some id }, cb)] }, id)
    | some _ =>
      ({ st with written := st.written ++ [(id, a')],
                 pendingIds := st.pendingIds ++ [id],
                 lastid := some id }, id)

/-- A submission to `action()`: the action, its callback (a token), and the
`String(new Date().getTime())` value at submission time. -/
structure SubmitReq where
  act : MAction
  cb : Nat
  now : List Char
deriving Repr, DecidableEq

/-- A sequence of `action()` calls. -/
def submitAll (st : MState) (rs : List SubmitReq) (rnd : Nat → Char) : MState :=
  rs.foldl (fun s r => (actionStep s r.act r.cb r.now rnd).1) st

/-- The `held.forEach((held) => this.action(held.action, held.callback))`
replay loop of the login success callback. -/
def replayHeld (st : MState) (hs : List (MAction × Nat)) (rnd : Nat → Char) :
    MState :=
  hs.foldl (fun s h => (actionStep s h.1 h.2 [] rnd).1) st

/-- Source `Manager.login` success callback body: set `authenticated`,
copy and clear the held queue, replay each held action through
`this.action`. -/
def loginOkStep (st : MState) (rnd : Nat → Char) : MState :=
  replayHeld { st with authenticated := true, held := [] } st.held rnd

/-- Source `Manager.login` error path: `if (err) { callback(err); return }` —
the context is left untouched. -/
def loginFailStep (st : MState) : MState := st

/-- Source `Manager.disconnect`: remove the `'close'` reconnect listener
when `this.reconnect` is set, end an open connection, delete the
connection.  Nothing else is touched (no timer cancellation, no held or
pending cleanup). -/
def disconnectStep (st : MState) : MState :=
  let st1 := if st.reconnectSet then { st with closeListenerOn := false } else st
  { st1 with conn := none }

/-- Source `Manager.isConnected`:
`Boolean(connection && connection.readyState === 'open')`. -/
def isConnectedB (st : MState) : Bool := st.conn = some RState.ropen

/-- Source `Manager.keepConnected`: once only, and only while not
connected, bind `attemptReconnect` to the `'close'` event. -/
def keepConnectedStep (st : MState) : MState :=
  if st.reconnectSet then st
  else if isConnectedB st = false then
    { st with reconnectSet := true, closeListenerOn := true }
  else st

/-- Source `Manager.attemptReconnect`: arm a timer at the current backoff
and bump the backoff. -/
def attemptReconnectStep (st : MState) : MState :=
  { st with timerPending := true, timerDelay := st.backoff,
            backoff := nextBackoff st.backoff }

/-- The `this.on('connect', () => this.resetBackoff())` handler. -/
def resetBackoffStep (st : MState) : MState := { st with backoff := 10000 }

/-- A socket `'close'` event: fires the bound reconnect listener if any. -/
def closeEventStep (st : MState) : MState :=
  if st.closeListenerOn then attemptReconnectStep st else st

/-- Source `Manager.connect`: when a connection exists whose readyState is
not `'closed'`, invoke the callback and return (second component `true`);
otherwise clear `authenticated` and create a fresh socket. -/
def connectStep (st : MState) : MState × Bool :=
  match st.conn with
  | some c =>
    if c ≠ RState.closed then (st, true)
    else ({ st with authenticated := false, conn := some RState.opening }, false)
  | none => ({ st with authenticated := false, conn := some RState.opening }, false)

/-- The armed reconnect timer firing: `setTimeout(connectFunc, backoff)`
invokes `connect` when it elapses. -/
def timerFireStep (st : MState) : MState :=
  if st.timerPending then (connectStep { st with timerPending := false }).1 else st

/-- A routed response firing the one-shot listener for `id` (`once`
removes the listener when it fires). -/
def resolveStep (st : MState) (id : List Char) : MState :=
  { st with pendingIds := st.pendingIds.erase id }

/-! ### Concrete inputs used by counterexamples and witnesses -/

/-- The input of spec scenario (c), fed to the assembler whole. -/
def inputC4 : List Char :=
  "Response: Follows\r\nActionID: 7\r\nPrivilege: Command\r\n\r\nline1\nline2\n--END COMMAND--\n\r\n".toList

/-- A malformed block (no `': '` separator) followed by a well-formed one. -/
def inputC9 : List Char := "garbage\r\n\r\nEvent: X\r\n\r\n".toList

/-- A fixed random-digit supply for concrete runs. -/
def rnd0 : Nat → Char := fun _ => '0'

/-- A ping action carrying a caller-supplied `actionid` of `X`. -/
def pingX : MAction := ⟨"ping".toList, some ['X'], []⟩

/-- An initial engine state with an open connection. -/
def stOpen : MState := { initM with conn := some RState.ropen }

/-- Two plain actions submitted before authentication. -/
def reqsC1 : List SubmitReq :=
  [⟨⟨"ping".toList, none, []⟩, 0, "100".toList⟩,
   ⟨⟨"status".toList, none, []⟩, 1, "101".toList⟩]

/-- An engine state with one held action and one registered completion. -/
def stBusy : MState :=
  { initM with authenticated := true, conn := some RState.ropen,
               held := [(pingX, 0)], pendingIds := ["42".toList] }

/-- A concrete action record with a simple, an array and a mapping field. -/
def reqC7 : List (List Char × AVal) :=
  [("Action".toList, AVal.s "Status".toList),
   ("Vars".toList, AVal.obj [("a".toList, "1".toList)]),
   ("Chans".toList, AVal.arr ["x".toList, "y".toList])]

/-!
## Theorems
-/

/-! ### Identifier generation -/

theorem length_le_maxLen {s : List Char} :
    ∀ {l : List (List Char)}, s ∈ l → s.length ≤ maxLen l := by
  intro l hl
  induction l with
  | nil => cases hl
  | cons a t ih =>
    cases hl with
    | head => simp only [maxLen, List.foldr]; omega
    | tail _ hm =>
      have := ih hm
      simp only [maxLen, List.foldr] at *
      omega

theorem genIdAux_not_mem (pending : List (List Char)) (rnd : Nat → Char) :
    ∀ (fuel k : Nat) (id : List Char), maxLen pending < id.length + fuel →
      genIdAux pending rnd fuel k id ∉ pending := by
  intro fuel
  induction fuel with
  | zero =>
    intro k id hlt hmem
    simp only [genIdAux] at hmem
    have := length_le_maxLen hmem
    omega
  | succ n ih =>
    intro k id hlt
    simp only [genIdAux]
    split
    · exact ih (k + 1) (id ++ [rnd k]) (by simp only [List.length_append, List.length_cons, List.length_nil]; omega)
    · assumption

theorem genId_not_mem (pending : List (List Char)) (rnd : Nat → Char)
    (base : List Char) : genId pending rnd base ∉ pending :=
  genIdAux_not_mem pending rnd (maxLen pending + 1) 0 base (by omega)

/-! ### Claim C10 -/

/-- Claim C10: if `connect()` is called while an existing connection object
is present whose readyState is not `'closed'`, it invokes the callback and
returns with the engine state entirely unchanged (no new socket, same
authenticated flag, held queue, pending completions and connection). -/
theorem connect_noop_when_active (st : MState) (c : RState)
    (h1 : st.conn = some c) (h2 : c ≠ RState.closed) :
    connectStep st = (st, true) := by
  unfold connectStep
  rw [h1]
  simp [h2]

/-- Witness for `connect_noop_when_active` at a concrete open connection. -/
theorem connect_noop_when_active_witness :
    connectStep { initM with conn := some RState.ropen } =
      ({ initM with conn := some RState.ropen }, true) :=
  connect_noop_when_active { initM with conn := some RState.ropen }
    RState.ropen rfl (by decide)

/-! ### Claim C5 -/

/-- Claim C5 counterexample: `disconnect()` neither clears the held queue
nor discards the registered pending completions — from a state with one
held action and one pending completion, both survive the disconnect,
contradicting the claim that they are discarded/cleared. -/
theorem c5_counterexample :
    ¬ ((disconnectStep stBusy).held = [] ∧ (disconnectStep stBusy).pendingIds = []) := by
  decide

/-- Claim C5 (amended): `disconnect()` only detaches the reconnect
close-listener and drops the connection; it leaves every registered
pending completion and the whole held queue in place (nothing is rejected
or cleared). -/
theorem disconnect_keeps_pending_and_held (st : MState) :
    (disconnectStep st).held = st.held ∧
    (disconnectStep st).pendingIds = st.pendingIds ∧
    (disconnectStep st).conn = none := by
  unfold disconnectStep
  split <;> simp

/-! ### Claim C6 -/

/-- Claim C6 counterexample: with keep-connected enabled and a backoff
timer already armed by a close event, `disconnect()` leaves the timer
pending, and its firing opens a new connection with no explicit
`connect()` call by the caller — contradicting the claim that disconnect
cancels any pending backoff timer and that no new connection is opened. -/
theorem c6_counterexample :
    (disconnectStep (closeEventStep (keepConnectedStep initM))).conn = none ∧
    (disconnectStep (closeEventStep (keepConnectedStep initM))).timerPending = true ∧
    (timerFireStep (disconnectStep (closeEventStep (keepConnectedStep initM)))).conn ≠ none := by
  decide

/-- Claim C6 (amended): `disconnect()` removes the reconnect close-listener
(so a later close event schedules no new attempt), but it does not cancel
an already-armed backoff timer, which remains pending. -/
theorem disconnect_unbinds_close_listener (st : MState)
    (h : st.reconnectSet = true) :
    (disconnectStep st).closeListenerOn = false ∧
    (disconnectStep st).timerPending = st.timerPending ∧
    closeEventStep (disconnectStep st) = disconnectStep st := by
  unfold disconnectStep closeEventStep
  simp [h]

/-- Witness for `disconnect_unbinds_close_listener` on a state where
keep-connected mode was enabled. -/
theorem disconnect_unbinds_close_listener_witness :
    (disconnectStep (keepConnectedStep initM)).closeListenerOn = false ∧
    (disconnectStep (keepConnectedStep initM)).timerPending = (keepConnectedStep initM).timerPending ∧
    closeEventStep (disconnectStep (keepConnectedStep initM)) = disconnectStep (keepConnectedStep initM) :=
  disconnect_unbinds_close_listener (keepConnectedStep initM) (by decide)

/-! ### Claim C8 -/

theorem backoffDelay_succ (k : Nat) :
    backoffDelay (k + 1) = nextBackoff (backoffDelay k) := by
  simp [backoffDelay, Function.iterate_succ_apply']

theorem backoffDelay_props (k : Nat) :
    10000 ≤ backoffDelay k ∧ backoffDelay k ≤ 60000 ∧ backoffDelay k % 10000 = 0 := by
  induction k with
  | zero => simp [backoffDelay]
  | succ n ih =>
    rw [backoffDelay_succ]
    unfold nextBackoff
    rcases ih with ⟨a, b, c⟩
    split <;> constructor <;> omega

/-- Claim C8: starting from the constructor's 10s backoff, consecutive
failed reconnect attempts use non-decreasing delays that increase by the
fixed 10s step and never exceed the 60s cap (`10s, 20s` for two
consecutive failures); `attemptReconnect` arms the timer at the current
backoff before bumping it, and a successful connection resets the backoff
to the initial 10s. -/
theorem backoff_monotone_capped (k : Nat) (st : MState) :
    backoffDelay 0 = 10000 ∧
    backoffDelay 1 = 20000 ∧
    backoffDelay k ≤ backoffDelay (k + 1) ∧
    backoffDelay k ≤ 60000 ∧
    backoffDelay (k + 1) = min (backoffDelay k + 10000) 60000 ∧
    (attemptReconnectStep st).timerDelay = st.backoff ∧
    (attemptReconnectStep st).backoff = nextBackoff st.backoff ∧
    (resetBackoffStep st).backoff = 10000 := by
  obtain ⟨h1, h2, h3⟩ := backoffDelay_props k
  refine ⟨by simp [backoffDelay], by decide, ?_, h2, ?_, rfl, rfl, rfl⟩
  · rw [backoffDelay_succ]; unfold nextBackoff; split <;> omega
  · rw [backoffDelay_succ]; unfold nextBackoff; split <;> omega

/-! ### Claim C2 -/

/-- Claim C2 counterexample: two actions submitted with the same
caller-supplied `actionid` while unauthenticated are both returned the
identifier `X` and both sit in the held queue at the same time — their
completions are concurrently pending with identical identifiers, so the
identifiers are not pairwise distinct and nothing rewrote them (the
collision scan only inspects registered listeners, which held actions do
not have). -/
theorem c2_counterexample :
    (actionStep stOpen pingX 0 "100".toList rnd0).2 =
      (actionStep (actionStep stOpen pingX 0 "100".toList rnd0).1 pingX 1 "100".toList rnd0).2 ∧
    (actionStep (actionStep stOpen pingX 0 "100".toList rnd0).1 pingX 1 "100".toList rnd0).1.held.length = 2 := by
  decide

theorem actionStep_nodup (st : MState) (a : MAction) (cb : Nat)
    (now : List Char) (rnd : Nat → Char) (h : st.pendingIds.Nodup) :
    (actionStep st a cb now rnd).1.pendingIds.Nodup := by
  unfold actionStep
  split
  · simpa using h
  · split
    · simpa using h
    · simp only
      refine List.Nodup.append h (List.nodup_singleton _) ?_
      intro x hx hx1
      simp only [List.mem_singleton] at hx1
      subst hx1
      exact genId_not_mem st.pendingIds rnd _ hx

theorem replayHeld_nodup (rnd : Nat → Char) (hs : List (MAction × Nat)) :
    ∀ st : MState, st.pendingIds.Nodup → (replayHeld st hs rnd).pendingIds.Nodup := by
  induction hs with
  | nil => intro st h; exact h
  | cons p t ih =>
    intro st h
    simp only [replayHeld, List.foldl] at *
    exact ih _ (actionStep_nodup st p.1 p.2 [] rnd h)

/-- Claim C2 (amended): the identifiers of actions whose completions are
registered (written actions) are pairwise distinct at all times — a
colliding identifier is perturbed until it avoids every registered one
before the completion is registered, and registration, held-queue replay
and completion removal all preserve distinctness.  The guarantee does not
extend to actions sitting in the held queue, whose identifiers are not
consulted by the collision scan (see the counterexample). -/
theorem registered_identifiers_distinct (st : MState) (a : MAction) (cb : Nat)
    (now id : List Char) (rnd : Nat → Char) (h : st.pendingIds.Nodup) :
    genId st.pendingIds rnd (falsyOr a.actionid now) ∉ st.pendingIds ∧
    (actionStep st a cb now rnd).1.pendingIds.Nodup ∧
    (loginOkStep st rnd).pendingIds.Nodup ∧
    (resolveStep st id).pendingIds.Nodup := by
  refine ⟨genId_not_mem _ _ _, actionStep_nodup st a cb now rnd h, ?_, ?_⟩
  · exact replayHeld_nodup rnd st.held _ (by simpa using h)
  · simpa [resolveStep] using h.erase id

/-- Witness for `registered_identifiers_distinct` at a concrete state with
one registered completion. -/
theorem registered_identifiers_distinct_witness :
    genId stBusy.pendingIds rnd0 (falsyOr pingX.actionid "100".toList) ∉ stBusy.pendingIds ∧
    (actionStep stBusy pingX 0 "100".toList rnd0).1.pendingIds.Nodup ∧
    (loginOkStep stBusy rnd0).pendingIds.Nodup ∧
    (resolveStep stBusy "42".toList).pendingIds.Nodup :=
  registered_identifiers_distinct stBusy pingX 0 "100".toList "42".toList rnd0 (by decide)

/-! ### Claim C7 -/

theorem fieldLines_eq (k : List Char) (v : AVal) (hk : usableKey k)
    (_hv : claimShaped v) : fieldLinesSrc k v = specFieldLines k v := by
  rcases hk with ⟨h1, h2⟩
  unfold fieldLinesSrc specFieldLines
  rw [if_neg]
  · cases v <;> rfl
  · simp only [not_or]
    exact ⟨by simpa [List.isEmpty_iff] using h1, h2⟩

/-- Claim C7: for an action record whose field values are strings, arrays
or nested mappings (with usable keys), `makeActionText` produces exactly
the claim's wire format — an `ActionID: <id>` line plus one
`<CapitalizedKey>: <value>` line per field (arrays comma-joined, nested
mappings as repeated `<CapitalizedKey>: <name>=<value>` lines), all lines
sorted lexicographically, joined by CRLF, terminated by a trailing blank
line. -/
theorem makeActionText_matches_claim (req : List (List Char × AVal))
    (id : List Char) (hk : ∀ kv ∈ req, usableKey kv.1)
    (hv : ∀ kv ∈ req, claimShaped kv.2) :
    makeActionText req id = specActionText req id := by
  unfold makeActionText specActionText
  have hfl : req.flatMap (fun kv => fieldLinesSrc kv.1 kv.2)
      = req.flatMap (fun kv => specFieldLines kv.1 kv.2) := by
    induction req with
    | nil => rfl
    | cons kv t ih =>
      simp only [List.flatMap_cons]
      rw [fieldLines_eq kv.1 kv.2 (hk kv (by simp)) (hv kv (by simp)),
          ih (fun x hx => hk x (by simp [hx])) (fun x hx => hv x (by simp [hx]))]
  rw [hfl]

/-- Witness for `makeActionText_matches_claim` on a concrete record with
all three field shapes. -/
theorem makeActionText_matches_claim_witness :
    makeActionText reqC7 "42".toList = specActionText reqC7 "42".toList :=
  makeActionText_matches_claim reqC7 "42".toList (by decide) (by decide)

/-! ### Claim C1 -/

theorem actionStep_auth_conn (st : MState) (a : MAction) (cb : Nat)
    (now : List Char) (rnd : Nat → Char) :
    (actionStep st a cb now rnd).1.authenticated = st.authenticated ∧
    (actionStep st a cb now rnd).1.conn = st.conn := by
  unfold actionStep
  split
  · simp
  · split <;> simp

theorem actionStep_unauth (st : MState) (a : MAction) (cb : Nat)
    (now : List Char) (rnd : Nat → Char)
    (h1 : st.authenticated = false) (h2 : a.action ≠ "login".toList) :
    (actionStep st a cb now rnd).1.written = st.written ∧
    (actionStep st a cb now rnd).1.pendingIds = st.pendingIds ∧
    (actionStep st a cb now rnd).1.held
      = st.held ++ [(withId a (genId st.pendingIds rnd (falsyOr a.actionid now)), cb)] := by
  simp only [actionStep]
  rw [if_pos ⟨h1, h2⟩]
  exact ⟨rfl, rfl, rfl⟩

theorem actionStep_auth_write (st : MState) (a : MAction) (cb : Nat)
    (now : List Char) (rnd : Nat → Char) (c : RState)
    (h1 : st.authenticated = true) (hc : st.conn = some c) :
    (actionStep st a cb now rnd).1.held = st.held ∧
    (actionStep st a cb now rnd).1.written
      = st.written ++ [(genId st.pendingIds rnd (falsyOr a.actionid now), stripId a)] := by
  simp only [actionStep]
  rw [if_neg (by simp [h1]), hc]
  exact ⟨rfl, rfl⟩

theorem submitAll_spec (rnd : Nat → Char) (rs : List SubmitReq) :
    ∀ st : MState, st.authenticated = false →
      (∀ r ∈ rs, r.act.action ≠ "login".toList) →
      (submitAll st rs rnd).authenticated = false ∧
      (submitAll st rs rnd).written = st.written ∧
      (submitAll st rs rnd).conn = st.conn ∧
      (submitAll st rs rnd).pendingIds = st.pendingIds ∧
      (submitAll st rs rnd).held.map (fun h => stripId h.1)
        = st.held.map (fun h => stripId h.1) ++ rs.map (fun r => stripId r.act) := by
  induction rs with
  | nil => intro st h1 _; simp [submitAll, h1]
  | cons r t ih =>
    intro st h1 h2
    have hr : r.act.action ≠ "login".toList := h2 r (by simp)
    have hfold : submitAll st (r :: t) rnd
        = submitAll (actionStep st r.act r.cb r.now rnd).1 t rnd := by
      simp [submitAll, List.foldl]
    obtain ⟨hpa, hpc⟩ := actionStep_auth_conn st r.act r.cb r.now rnd
    obtain ⟨hw, hp, hh⟩ := actionStep_unauth st r.act r.cb r.now rnd h1 hr
    obtain ⟨a1, a2, a3, a4, a5⟩ :=
      ih (actionStep st r.act r.cb r.now rnd).1 (hpa.trans h1)
        (fun x hx => h2 x (by simp [hx]))
    rw [hfold]
    refine ⟨a1, a2.trans hw, a3.trans hpc, a4.trans hp, ?_⟩
    rw [a5, hh]
    simp [stripId, withId]

theorem replayHeld_spec (rnd : Nat → Char) (hs : List (MAction × Nat)) :
    ∀ (st : MState) (c : RState), st.authenticated = true → st.conn = some c →
      (replayHeld st hs rnd).held = st.held ∧
      (replayHeld st hs rnd).written.map Prod.snd
        = st.written.map Prod.snd ++ hs.map (fun h => stripId h.1) := by
  induction hs with
  | nil => intro st c _ _; simp [replayHeld]
  | cons p t ih =>
    intro st c h1 h2
    have hfold : replayHeld st (p :: t) rnd
        = replayHeld (actionStep st p.1 p.2 [] rnd).1 t rnd := by
      simp [replayHeld, List.foldl]
    obtain ⟨hpa, hpc⟩ := actionStep_auth_conn st p.1 p.2 [] rnd
    obtain ⟨hh, hw⟩ := actionStep_auth_write st p.1 p.2 [] rnd c h1 h2
    obtain ⟨b1, b2⟩ := ih (actionStep st p.1 p.2 [] rnd).1 c (hpa.trans h1)
      (hpc.trans h2)
    rw [hfold]
    refine ⟨b1.trans hh, ?_⟩
    rw [b2, hw]
    simp

/-- Claim C1: actions submitted through `action()` while unauthenticated
(and not themselves `login`) are not written to the transport; they
accumulate in the held queue in submission order.  When the login
completes successfully, the held queue is drained in strict FIFO order —
the wire log gains exactly those actions, once each, in original
submission order — and is left empty.  When the login fails, the error
path leaves the engine state (held queue included) untouched, so nothing
is replayed. -/
theorem held_actions_replayed_fifo (st0 : MState) (rs : List SubmitReq)
    (rnd : Nat → Char) (c : RState)
    (hauth : st0.authenticated = false) (hheld : st0.held = [])
    (hconn : st0.conn = some c)
    (hlog : ∀ r ∈ rs, r.act.action ≠ "login".toList) :
    (submitAll st0 rs rnd).written = st0.written ∧
    (submitAll st0 rs rnd).held.map (fun h => stripId h.1)
      = rs.map (fun r => stripId r.act) ∧
    (loginOkStep (submitAll st0 rs rnd) rnd).held = [] ∧
    (loginOkStep (submitAll st0 rs rnd) rnd).written.map Prod.snd
      = st0.written.map Prod.snd ++ rs.map (fun r => stripId r.act) ∧
    loginFailStep (submitAll st0 rs rnd) = submitAll st0 rs rnd := by
  obtain ⟨a1, a2, a3, a4, a5⟩ := submitAll_spec rnd rs st0 hauth hlog
  have hh : (submitAll st0 rs rnd).held.map (fun h => stripId h.1)
      = rs.map (fun r => stripId r.act) := by
    rw [a5, hheld]; simp
  obtain ⟨b1, b2⟩ := replayHeld_spec rnd (submitAll st0 rs rnd).held
    { submitAll st0 rs rnd with authenticated := true, held := [] } c
    (by simp) (by simpa using a3.trans hconn)
  refine ⟨a2, hh, ?_, ?_, rfl⟩
  · unfold loginOkStep
    simpa using b1
  · unfold loginOkStep
    rw [b2]
    simp only [MState.written]
    rw [show ({ submitAll st0 rs rnd with authenticated := true, held := [] } : MState).written
          = (submitAll st0 rs rnd).written from rfl, a2, hh]

/-- Witness for `held_actions_replayed_fifo`: two actions (`ping`,
`status`) submitted before login on an open connection. -/
theorem held_actions_replayed_fifo_witness :
    (submitAll stOpen reqsC1 rnd0).written = stOpen.written ∧
    (submitAll stOpen reqsC1 rnd0).held.map (fun h => stripId h.1)
      = reqsC1.map (fun r => stripId r.act) ∧
    (loginOkStep (submitAll stOpen reqsC1 rnd0) rnd0).held = [] ∧
    (loginOkStep (submitAll stOpen reqsC1 rnd0) rnd0).written.map Prod.snd
      = stOpen.written.map Prod.snd ++ reqsC1.map (fun r => stripId r.act) ∧
    loginFailStep (submitAll stOpen reqsC1 rnd0) = submitAll stOpen reqsC1 rnd0 :=
  held_actions_replayed_fifo stOpen reqsC1 rnd0 RState.ropen rfl rfl rfl (by decide)

/-! ### Claim C4 -/

/-- Claim C4 counterexample: on the exact scenario-(c) byte sequence, the
emitted FollowsBlock does not have content `"line1\nline2"` — the header
lines and the separating blank line are part of the content too, because
the follows capture starts at the `Response: Follows` line itself. -/
theorem c4_counterexample :
    (handleData initAsm inputC4).2 ≠
      [Msg.follows "line1\nline2".toList (some ['7'])] := by
  decide

/-- Claim C4 (amended): feeding the scenario-(c) byte sequence emits
exactly one FollowsBlock whose content is every captured line from the
`Response: Follows` header line through `line2` joined by newline — the
terminator line and the closing blank line are excluded, but the header
lines and the blank line separating them from the body are included — and
whose actionid is `7`, extracted by the case-insensitive scan of the
content for an `actionid: <value>` line. -/
theorem c4_follows_block :
    (handleData initAsm inputC4).2 =
      [Msg.follows
        "Response: Follows\nActionID: 7\nPrivilege: Command\n\nline1\nline2".toList
        (some ['7'])] := by
  decide

/-! ### Claim C9 -/

/-- Claim C9 counterexample: a block consisting of the single line
`garbage` (no `': '` separator) is not dropped — it is emitted as a
message of its own (whole line as key, empty value) ahead of the
following well-formed block, so the emitted sequence is not just the
well-formed block's message. -/
theorem c9_counterexample :
    (handleData initAsm inputC9).2 ≠
      [Msg.block [("event".toList, IVal.s ['X'])]] ∧
    (handleData initAsm inputC9).2 =
      [Msg.block [("garbage".toList, IVal.s [])],
       Msg.block [("event".toList, IVal.s ['X'])]] := by
  decide

/-- Claim C9 (amended): the assembler is total — a block whose line has no
`': '` separator does not halt it, but the block is emitted (not dropped)
as a one-field mapping taking the whole line as key with an empty value,
and processing of everything after the closing blank line continues
exactly as from a fresh block boundary, so subsequent well-formed blocks
are emitted unaffected. -/
theorem malformed_block_emitted (m : List Char) (rest : List (List Char))
    (h1 : m ≠ []) (h2 : isGreeting m = false) (h3 : isFollowsStart m = false)
    (h4 : splitFirstSub [':', ' '] m = none)
    (h5 : lowerStr (removeSpaces m) ≠ "variable".toList)
    (h6 : lowerStr (removeSpaces m) ≠ "chanvariable".toList) :
    procLines ⟨[], 0⟩ ([m, []] ++ rest) =
      ((procLines ⟨[], 0⟩ rest).1,
       Msg.block [(lowerStr (removeSpaces m), IVal.s [])]
         :: (procLines ⟨[], 0⟩ rest).2) := by
  have hne : m.isEmpty = false := by
    cases m with
    | nil => exact absurd rfl h1
    | cons c t => rfl
  have hs1 : stepLine ⟨[], 0⟩ m = (⟨[m], 0⟩, none) := by
    unfold stepLine
    simp [h2, h3, hne]
  have hs2 : stepLine ⟨[m], 0⟩ [] =
      (⟨[], 0⟩, some (Msg.block (parseBlock [m]))) := by
    unfold stepLine
    simp [hne]
  have hpb : parseBlock [m] = [(lowerStr (removeSpaces m), IVal.s [])] := by
    unfold parseBlock
    simp only [List.filter, hne, Bool.not_false, List.foldl]
    unfold parseLine
    rw [show splitKV m = (m, []) by unfold splitKV; rw [h4]]
    simp only [if_neg (by simp only [not_or]; exact ⟨by simpa using h5, by simpa using h6⟩ :
      ¬(lowerStr (removeSpaces m) = "variable".toList ∨
        lowerStr (removeSpaces m) = "chanvariable".toList))]
    simp [alGet, alSet]
  show (procLines ⟨[], 0⟩ (m :: [] :: rest)) = _
  simp only [procLines, hs1, hs2, hpb]
  simp

/-- Witness for `malformed_block_emitted` on the concrete line `garbage`. -/
theorem malformed_block_emitted_witness :
    procLines ⟨[], 0⟩ (["garbage".toList, []] ++ []) =
      ((procLines ⟨[], 0⟩ []).1,
       Msg.block [(lowerStr (removeSpaces "garbage".toList), IVal.s [])]
         :: (procLines ⟨[], 0⟩ []).2) :=
  malformed_block_emitted "garbage".toList [] (by decide) (by decide)
    (by decide) (by decide) (by decide) (by decide)

/-! ### Claim C3 -/

theorem splitPop_cons (c : Char) (t : List Char) (h : c ≠ '\n') :
    splitPop (c :: t) =
      (if c = '\r' && t.head? = some '\n' then splitPop t
       else
         match splitPop t with
         | ([], rest) => ([], c :: rest)
         | (h :: ls, rest) => ((c :: h) :: ls, rest)) := by
  rw [splitPop.eq_def]
  simp [h]

theorem splitPop_lines_nil : ∀ t : List Char, (splitPop t).1 = [] → (splitPop t).2 = t := by
  intro t
  induction t with
  | nil => intro _; rfl
  | cons c t ih =>
    by_cases hc : c = '\n'
    · subst hc
      intro hl
      simp [splitPop] at hl
    · rw [splitPop_cons c t hc]
      split
    --  skip branch: t begins with a newline, so the lines cannot be empty
      · rename_i hcond
        have ht : t.head? = some '\n' := by
          have := (Bool.and_eq_true _ _).mp hcond
          simpa using this.2
        intro hl
        cases t with
        | nil => simp at ht
        | cons t0 t1 =>
          simp only [List.head?_cons, Option.some.injEq] at ht
          subst ht
          simp [splitPop] at hl
      · rcases hsp : splitPop t with ⟨ls, rest⟩
        cases ls with
        | nil =>
          intro _
          have := ih (by rw [hsp])
          rw [hsp] at this
          simpa using this
        | cons h0 ls' =>
          intro hl
          simp at hl

theorem splitPop_no_nl : ∀ s : List Char, '\n' ∉ s → splitPop s = ([], s) := by
  intro s
  induction s with
  | nil => intro _; rfl
  | cons c t ih =>
    intro h
    have hc : c ≠ '\n' := fun hh => h (by simp [hh])
    have ht : '\n' ∉ t := fun hh => h (by simp [hh])
    rw [splitPop_cons c t hc]
    rw [if_neg]
    · rw [ih ht]
    · intro hcond
      have h2 := ((Bool.and_eq_true _ _).mp hcond).2
      simp only [decide_eq_true_eq] at h2
      cases t with
      | nil => simp at h2
      | cons t0 t1 =>
        simp only [List.head?_cons, Option.some.injEq] at h2
        exact ht (by simp [h2])

theorem splitPop_rem_no_nl : ∀ s : List Char, '\n' ∉ (splitPop s).2 := by
  intro s
  induction s with
  | nil => simp [splitPop]
  | cons c t ih =>
    by_cases hc : c = '\n'
    · subst hc
      simpa [splitPop] using ih
    · rw [splitPop_cons c t hc]
      split
      · exact ih
      · rcases hsp : splitPop t with ⟨ls, rest⟩
        have ih' : '\n' ∉ rest := by rw [hsp] at ih; exact ih
        cases ls with
        | nil =>
          show '\n' ∉ c :: rest
          simp only [List.mem_cons, not_or]
          exact ⟨fun hh => hc hh.symm, ih'⟩
        | cons h0 ls' => exact ih'

theorem splitPop_append : ∀ x y : List Char,
    splitPop (x ++ y) =
      ((splitPop x).1 ++ (splitPop ((splitPop x).2 ++ y)).1,
       (splitPop ((splitPop x).2 ++ y)).2) := by
  intro x y
  induction x with
  | nil => simp [splitPop]
  | cons c t ih =>
    by_cases hc : c = '\n'
    · subst hc
      show splitPop ('\n' :: (t ++ y)) = _
      rw [show splitPop ('\n' :: (t ++ y))
            = ([] :: (splitPop (t ++ y)).1, (splitPop (t ++ y)).2) from rfl,
          show splitPop ('\n' :: t)
            = ([] :: (splitPop t).1, (splitPop t).2) from rfl, ih]
      simp
    · cases t with
      | nil =>
        have h1 : splitPop [c] = ([], [c]) := by
          rw [splitPop_cons c [] hc]
          simp [splitPop]
        rw [h1]
        simp
      | cons t0 t1 =>
        by_cases hr : c = '\r' ∧ t0 = '\n'
        · rcases hr with ⟨rfl, rfl⟩
          show splitPop ('\r' :: (('\n' :: t1) ++ y)) = _
          rw [splitPop_cons '\r' (('\n' :: t1) ++ y) hc,
              splitPop_cons '\r' ('\n' :: t1) hc]
          rw [if_pos (by simp), if_pos (by simp)]
          exact ih
        · have hcondA : ¬((c = '\r' && ((t0 :: t1).head? = some '\n')) = true) := by
            simp only [List.head?_cons, Bool.and_eq_true, decide_eq_true_eq,
              Option.some.injEq, not_and]
            intro hx hy
            exact hr ⟨hx, hy⟩
          have hcondB : ¬((c = '\r' && (((t0 :: t1) ++ y).head? = some '\n')) = true) := by
            simp only [List.cons_append, List.head?_cons, Bool.and_eq_true,
              decide_eq_true_eq, Option.some.injEq, not_and]
            intro hx hy
            exact hr ⟨hx, hy⟩
          rcases hsp : splitPop (t0 :: t1) with ⟨ls, rest⟩
          cases ls with
          | nil =>
            have hrest : rest = t0 :: t1 := by
              have := splitPop_lines_nil (t0 :: t1) (by rw [hsp])
              rw [hsp] at this
              simpa using this
            have hx : splitPop (c :: t0 :: t1) = ([], c :: t0 :: t1) := by
              rw [splitPop_cons c (t0 :: t1) hc, if_neg hcondA, hsp, hrest]
            rw [hx]
            simp
          | cons h0 ls' =>
            have hx : splitPop (c :: t0 :: t1) = ((c :: h0) :: ls', rest) := by
              rw [splitPop_cons c (t0 :: t1) hc, if_neg hcondA, hsp]
            show splitPop (c :: ((t0 :: t1) ++ y)) = _
            rw [splitPop_cons c ((t0 :: t1) ++ y) hc, if_neg hcondB, ih, hsp, hx]
            simp

theorem procLines_cons (st : LoopSt) (l : List Char) (rest : List (List Char)) :
    procLines st (l :: rest) =
      ((procLines (stepLine st l).1 rest).1,
       (stepLine st l).2.toList ++ (procLines (stepLine st l).1 rest).2) := rfl

theorem procLines_append (xs ys : List (List Char)) :
    ∀ st : LoopSt, procLines st (xs ++ ys) =
      ((procLines (procLines st xs).1 ys).1,
       (procLines st xs).2 ++ (procLines (procLines st xs).1 ys).2) := by
  induction xs with
  | nil => intro st; simp [procLines]
  | cons l t ih =>
    intro st
    simp only [List.cons_append, procLines_cons, ih]
    simp

theorem loopInv_init : LoopInv ⟨[], 0⟩ := rfl

theorem loopInv_acc_nil (st : LoopSt) (h : LoopInv st) (hn : st.acc = []) :
    st.follow = 0 := by
  unfold LoopInv at h
  rw [hn] at h
  have h2 := congrArg (fun p => p.1.follow) h
  simpa using h2.symm

theorem stepLine_preserves_inv (st : LoopSt) (l : List Char) (h : LoopInv st) :
    LoopInv (stepLine st l).1 := by
  unfold stepLine
  split_ifs with h1 h2 h3 h4 h5
  · exact h
  · -- follows-start line opens a fresh capture
    obtain ⟨ha, hf⟩ := (Bool.and_eq_true _ _).mp h2
    have hacc : st.acc = [] := by simpa [List.isEmpty_iff] using ha
    have hg : isGreeting l = false := by
      cases hgg : isGreeting l
      · rfl
      · exact absurd ((Bool.and_eq_true _ _).mpr ⟨ha, hgg⟩) h1
    show LoopInv ⟨st.acc ++ [l], 1⟩
    rw [hacc]
    unfold LoopInv
    simp only [List.nil_append]
    rw [procLines_cons]
    rw [show stepLine ⟨[], 0⟩ l = (⟨[l], 1⟩, none) by unfold stepLine; simp [hg, hf]]
    simp [procLines]
  · -- end-marker line while capturing
    obtain ⟨hf0, he⟩ := (Bool.and_eq_true _ _).mp h3
    simp only [decide_eq_true_eq] at hf0
    have haccne : st.acc ≠ [] := fun hnil => hf0 (loopInv_acc_nil st h hnil)
    have hie : st.acc.isEmpty = false := by
      cases hacc : st.acc.isEmpty
      · rfl
      · exact absurd (List.isEmpty_iff.mp hacc) haccne
    show LoopInv ⟨st.acc ++ [l], 2⟩
    unfold LoopInv
    simp only
    rw [procLines_append]
    unfold LoopInv at h
    rw [h, procLines_cons]
    rw [show stepLine st l = (⟨st.acc ++ [l], 2⟩, none) by
          unfold stepLine; simp [hie, hf0, he]]
    simp [procLines]
  · exact loopInv_init
  · exact loopInv_init
  · -- plain accumulated line
    show LoopInv ⟨st.acc ++ [l], st.follow⟩
    unfold LoopInv
    simp only
    rw [procLines_append]
    unfold LoopInv at h
    rw [h, procLines_cons]
    rw [show stepLine st l = (⟨st.acc ++ [l], st.follow⟩, none) by
          unfold stepLine; rw [if_neg h1, if_neg h2, if_neg h3, if_neg h4, if_neg h5]]
    simp [procLines]

theorem procLines_preserves_inv (ls : List (List Char)) :
    ∀ st : LoopSt, LoopInv st → LoopInv (procLines st ls).1 := by
  induction ls with
  | nil => intro st h; exact h
  | cons l t ih =>
    intro st h
    simp only [procLines_cons]
    exact ih _ (stepLine_preserves_inv st l h)

theorem procLines_replay (st : LoopSt) (ys : List (List Char)) (h : LoopInv st) :
    procLines ⟨[], 0⟩ (st.acc ++ ys) = procLines st ys := by
  rw [procLines_append]
  unfold LoopInv at h
  rw [h]
  simp

theorem handleData_eq (st : AsmSt) (data : List Char) :
    handleData st data =
      (⟨(procLines ⟨[], 0⟩ (st.ctxLines ++ (splitPop (st.leftOver ++ data)).1)).1.acc,
        (splitPop (st.leftOver ++ data)).2⟩,
       (procLines ⟨[], 0⟩ (st.ctxLines ++ (splitPop (st.leftOver ++ data)).1)).2) := rfl

theorem handleData_comp (st : AsmSt) (a b : List Char) :
    handleData st (a ++ b) =
      ((handleData (handleData st a).1 b).1,
       (handleData st a).2 ++ (handleData (handleData st a).1 b).2) := by
  have hinv : LoopInv (procLines ⟨[], 0⟩
      (st.ctxLines ++ (splitPop (st.leftOver ++ a)).1)).1 :=
    procLines_preserves_inv _ _ loopInv_init
  rw [handleData_eq st (a ++ b), handleData_eq st a, handleData_eq]
  dsimp only
  rw [← List.append_assoc st.leftOver a b, splitPop_append (st.leftOver ++ a) b,
      ← List.append_assoc st.ctxLines, procLines_append,
      procLines_replay _ _ hinv]

theorem handleData_keeps_inv (st : AsmSt) (a : List Char) :
    AsmInv (handleData st a).1 := by
  rw [handleData_eq]
  refine ⟨⟨(procLines ⟨[], 0⟩ (st.ctxLines ++ (splitPop (st.leftOver ++ a)).1)).1.follow, ?_⟩,
          splitPop_rem_no_nl _⟩
  exact procLines_preserves_inv _ _ loopInv_init

theorem handleData_nil (st : AsmSt) (h : AsmInv st) : handleData st [] = (st, []) := by
  obtain ⟨⟨f, hf⟩, hnl⟩ := h
  rw [handleData_eq, List.append_nil, splitPop_no_nl st.leftOver hnl]
  dsimp only
  rw [List.append_nil, hf]

theorem feedAll_eq (chunks : List (List Char)) :
    ∀ st : AsmSt, AsmInv st → feedAll st chunks = handleData st chunks.flatten := by
  induction chunks with
  | nil => intro st h; exact (handleData_nil st h).symm
  | cons c cs ih =>
    intro st h
    show ((feedAll (handleData st c).1 cs).1,
          (handleData st c).2 ++ (feedAll (handleData st c).1 cs).2) = _
    rw [ih (handleData st c).1 (handleData_keeps_inv st c),
        show (c :: cs).flatten = c ++ cs.flatten from rfl,
        handleData_comp st c cs.flatten]

/-- Claim C3: for every byte sequence and every partition of it into
consecutive chunks, feeding the chunks to `handleData` one call at a time
emits exactly the same ordered sequence of assembled messages (and leaves
the assembler in the same state) as feeding the whole sequence in a
single call. -/
theorem assembler_chunk_independent (chunks : List (List Char)) :
    feedAll initAsm chunks = handleData initAsm chunks.flatten :=
  feedAll_eq chunks initAsm ⟨⟨0, rfl⟩, by simp [initAsm]⟩

end AMI
